import Mathlib

/-!
Formal model of the `vis-core` audio-analysis library (crate `vis-core` of
`visualizer2`): the sample ring buffer (`analyzer/samples.rs`), the spectrum
container (`analyzer/spectrum.rs`) and the beat detector (`analyzer/beat.rs`).

Modelling conventions:
* `f32` sample/signal values are modelled as exact rationals (`ℚ`);
* `usize` is modelled as `ℕ`, with checked subtraction/indexing: an operation
  that panics in the Rust code (index underflow, `expect` on an empty pop,
  out-of-bounds indexing, division by zero) is modelled by returning `none`;
* `VecDeque` is modelled as a `List` whose head is the front (oldest entry).
-/

/-- Samples are stereo frames of two (exact-rational) channel values. -/
abbrev StereoFrame : Type := ℚ × ℚ

/-- Model of `SampleBuffer` (`samples.rs`): the ring buffer contents (front =
oldest) together with the record rate. -/
structure SampleBuffer where
  buf : List StereoFrame
  rate : Nat

namespace SampleBuffer

/-- `SampleBuffer::new(size, rate)`: a buffer pre-filled with `size` zero
frames. -/
def new (size rate : Nat) : SampleBuffer :=
  ⟨List.replicate size ((0 : ℚ), (0 : ℚ)), rate⟩

/-- The loop body of `SampleBuffer::push`: for each incoming frame, pop the
front (`pop_front().expect(..)` — panics, i.e. `none`, when the buffer is
empty) and push the frame at the back. -/
def pushLoop : List StereoFrame → List StereoFrame → Option (List StereoFrame)
  | buf, [] => some buf
  | [], _ :: _ => none
  | _ :: rest, s :: ss => pushLoop (rest ++ [s]) ss

/-- `SampleBuffer::push(new)`. -/
def push (b : SampleBuffer) (new : List StereoFrame) : Option SampleBuffer :=
  (pushLoop b.buf new).map (fun l => ⟨l, b.rate⟩)

/-- A whole sequence of `push` calls, each with its own slice of frames. -/
def pushAll : SampleBuffer → List (List StereoFrame) → Option SampleBuffer
  | b, [] => some b
  | b, p :: ps => (b.push p).bind (fun b2 => pushAll b2 ps)

/-- Collecting `SampleIterator`: starting at `index`, yield `buf[index]` and
advance by `downsample` until `get` fails.  The `fuel` argument bounds the
number of `next()` calls; `iter` passes `fuel = size`, which is exact: with a
start index of `len - size * downsample` the Rust iterator returns `None` for
the first time precisely after `size` yields (immediately, when
`downsample = 0`, since the start index is then already `len`). -/
def collectIter (buf : List StereoFrame) (downsample : Nat) :
    Nat → Nat → List StereoFrame
  | _index, 0 => []
  | index, fuel + 1 =>
    if h : index < buf.length then
      buf.get ⟨index, h⟩ :: collectIter buf downsample (index + downsample) fuel
    else []

/-- `SampleBuffer::iter(size, downsample)` followed by collecting the returned
iterator: the start index is `len - size * downsample`, a `usize` subtraction
that underflows (panics with debug assertions, modelled as `none`) when
`size * downsample` exceeds the buffer length. -/
def iter (b : SampleBuffer) (size downsample : Nat) : Option (List StereoFrame) :=
  if size * downsample ≤ b.buf.length then
    some (collectIter b.buf downsample (b.buf.length - size * downsample) size)
  else none

end SampleBuffer

/-- `pushLoop` preserves the buffer length whenever it succeeds. -/
theorem pushLoop_length : ∀ (new buf out : List StereoFrame),
    SampleBuffer.pushLoop buf new = some out → out.length = buf.length := by
  intro new
  induction new with
  | nil =>
    intro buf out h
    simp [SampleBuffer.pushLoop] at h
    simp [h]
  | cons s ss ih =>
    intro buf out h
    match buf with
    | [] => simp [SampleBuffer.pushLoop] at h
    | x :: rest =>
      simp only [SampleBuffer.pushLoop] at h
      have := ih (rest ++ [s]) out h
      simp only [List.length_append, List.length_cons, List.length_nil] at this ⊢
      omega

/-- `push` preserves the buffer length whenever it succeeds. -/
theorem push_length (b : SampleBuffer) (new : List StereoFrame)
    (b2 : SampleBuffer) (h : b.push new = some b2) :
    b2.buf.length = b.buf.length := by
  simp only [SampleBuffer.push, Option.map_eq_some'] at h
  obtain ⟨l, hl, rfl⟩ := h
  exact pushLoop_length new b.buf l hl

/-- C2: For a `SampleBuffer` created with capacity `N`, after any sequence of
`push` calls (each with any number of stereo frames) the buffer's length is
still exactly `N`: every pushed frame evicts exactly one oldest entry. -/
theorem C2_push_preserves_length (N rate : Nat)
    (pushes : List (List StereoFrame)) (b : SampleBuffer)
    (h : (SampleBuffer.new N rate).pushAll pushes = some b) :
    b.buf.length = N := by
  suffices H : ∀ (ps : List (List StereoFrame)) (b0 b1 : SampleBuffer),
      b0.pushAll ps = some b1 → b1.buf.length = b0.buf.length by
    have := H pushes (SampleBuffer.new N rate) b h
    simpa [SampleBuffer.new] using this
  intro ps
  induction ps with
  | nil =>
    intro b0 b1 h
    simp [SampleBuffer.pushAll] at h
    simp [← h]
  | cons p ps ih =>
    intro b0 b1 h
    simp only [SampleBuffer.pushAll, Option.bind_eq_some] at h
    obtain ⟨b2, hb2, hrest⟩ := h
    rw [ih b2 b1 hrest, push_length b0 p b2 hb2]

/-- Witness for C2 at a concrete input: capacity 2, two pushes. -/
theorem C2_push_preserves_length_witness :
    (SampleBuffer.new 2 8000).pushAll [[((1 : ℚ), (1 : ℚ))],
        [((2 : ℚ), (2 : ℚ)), ((3 : ℚ), (3 : ℚ))]] =
      some ⟨[((2 : ℚ), (2 : ℚ)), ((3 : ℚ), (3 : ℚ))], 8000⟩ ∧
    ([((2 : ℚ), (2 : ℚ)), ((3 : ℚ), (3 : ℚ))] : List StereoFrame).length = 2 := by
  refine ⟨rfl, ?_⟩
  exact C2_push_preserves_length 2 8000
    [[((1 : ℚ), (1 : ℚ))], [((2 : ℚ), (2 : ℚ)), ((3 : ℚ), (3 : ℚ))]]
    ⟨[((2 : ℚ), (2 : ℚ)), ((3 : ℚ), (3 : ℚ))], 8000⟩ rfl

/-- C1: Pushing the ascending integers `0..32` (both channels equal) into a
buffer of capacity 32 and then calling `iter(7, 4)` yields exactly the seven
stereo frames `[4, 8, 12, 16, 20, 24, 28]`, each value duplicated across both
channels, in that order. -/
theorem C1_push_iter_downsample :
    ((SampleBuffer.new 32 8000).push
        ((List.range 32).map (fun i => ((i : ℚ), (i : ℚ))))).bind
      (fun b => b.iter 7 4) =
    some [((4 : ℚ), (4 : ℚ)), ((8 : ℚ), (8 : ℚ)), ((12 : ℚ), (12 : ℚ)),
      ((16 : ℚ), (16 : ℚ)), ((20 : ℚ), (20 : ℚ)), ((24 : ℚ), (24 : ℚ)),
      ((28 : ℚ), (28 : ℚ))] := by
  rfl

/-- C8: `iter(size, downsample)` fails (index underflow, modelled as `none`)
whenever `size * downsample` exceeds the buffer's length; it never silently
returns a shortened or empty sequence in that case. -/
theorem C8_iter_overflow_fails (b : SampleBuffer) (size downsample : Nat)
    (h : b.buf.length < size * downsample) :
    b.iter size downsample = none := by
  simp [SampleBuffer.iter]
  omega

/-- Witness for C8 at a concrete input: capacity 2, `iter(3, 1)`. -/
theorem C8_iter_overflow_fails_witness :
    (SampleBuffer.new 2 8000).buf.length < 3 * 1 ∧
    (SampleBuffer.new 2 8000).iter 3 1 = none := by
  refine ⟨by decide, C8_iter_overflow_fails _ 3 1 (by decide)⟩

/-- Model of `Spectrum` (`spectrum.rs`): the bucket values plus the frequency
bounds and the derived bucket width. -/
structure Spectrum where
  buckets : List ℚ
  width : ℚ
  lowest : ℚ
  highest : ℚ

namespace Spectrum

/-- `Spectrum::new(data, low, high)`: `width = (high - low) / (len - 1)`. -/
def new (data : List ℚ) (low high : ℚ) : Spectrum :=
  { width := (high - low) / ((data.length : ℚ) - 1)
    lowest := low
    highest := high
    buckets := data }

/-- The value `i as Frequency * width + lowest` computed by
`Spectrum::id_to_freq`, without the bounds assertion. -/
def idToFreqVal (s : Spectrum) (i : Nat) : ℚ :=
  (i : ℚ) * s.width + s.lowest

/-- `Spectrum::id_to_freq(i)`: asserts `i < buckets.len()` (panic modelled as
`none`). -/
def id_to_freq (s : Spectrum) (i : Nat) : Option ℚ :=
  if i < s.buckets.length then some (s.idToFreqVal i) else none

/-- `Spectrum::freq_to_id(f)`: `x = (f - lowest) / width`, assert `x >= 0`,
`i = round(x) as usize`, assert `i < len`.  When `width = 0` the `f32`
division yields a non-finite `x` and one of the two assertions necessarily
fails, so that case is modelled as `none` as well (`ℚ` has no NaN/∞). -/
def freq_to_id (s : Spectrum) (f : ℚ) : Option Nat :=
  if s.width = 0 then none
  else
    let x := (f - s.lowest) / s.width
    if 0 ≤ x then
      let i := (round x).toNat
      if i < s.buckets.length then some i else none
    else none

/-- One `buf[bucket] += v` step of `fill_buckets`: out-of-bounds indexing
panics (`none`). -/
def addAt (l : List ℚ) (j : Nat) (v : ℚ) : Option (List ℚ) :=
  if h : j < l.length then some (l.set j (l.get ⟨j, h⟩ + v)) else none

/-- The accumulation loop of `fill_buckets`: source bucket `i` is added into
target bucket `i * T / S` (`S` = source length, `T` = target length). -/
def fillLoop (S T : Nat) : List ℚ → Nat → List ℚ → Option (List ℚ)
  | [], _, acc => some acc
  | v :: vs, i, acc => (addAt acc (i * T / S) v).bind (fillLoop S T vs (i + 1))

/-- `Spectrum::fill_buckets(buf)`: zero every target bucket, accumulate each
source bucket into `buf[i * buf.len() / self.buckets.len()]`, and rebuild the
spectrum metadata around the target length. -/
def fill_buckets (s : Spectrum) (buf : List ℚ) : Option Spectrum :=
  (fillLoop s.buckets.length buf.length s.buckets 0 (buf.map (fun _ => 0))).map
    (fun out =>
      { width := (s.highest - s.lowest) / ((buf.length : ℚ) - 1)
        lowest := s.lowest
        highest := s.highest
        buckets := out })

end Spectrum

/-- Adding `v` into slot `j` of a list changes its sum by exactly `v`. -/
theorem sum_set_add (l : List ℚ) (j : Nat) (v : ℚ) (h : j < l.length) :
    (l.set j (l.get ⟨j, h⟩ + v)).sum = l.sum + v := by
  rw [List.sum_set]
  have hs := List.sum_take_add_sum_drop l j
  rw [List.drop_eq_getElem_cons h] at hs
  simp only [List.sum_cons] at hs
  simp only [List.get_eq_getElem, if_pos h]
  linarith [hs]

/-- The `fill_buckets` loop succeeds and adds the source sum to the
accumulator sum, provided the target is nonempty and the running index stays
below the source length. -/
theorem fillLoop_sum (S T : Nat) (hT : 0 < T) :
    ∀ (src : List ℚ) (i : Nat) (acc : List ℚ), acc.length = T →
      i + src.length ≤ S →
      ∃ out, Spectrum.fillLoop S T src i acc = some out ∧
        out.sum = acc.sum + src.sum ∧ out.length = T := by
  intro src
  induction src with
  | nil =>
    intro i acc hacc _
    exact ⟨acc, rfl, by simp, hacc⟩
  | cons v vs ih =>
    intro i acc hacc hi
    have hiS : i < S := by simp at hi; omega
    have hj : i * T / S < T := by
      rw [Nat.div_lt_iff_lt_mul (by omega)]
      calc i * T < S * T := mul_lt_mul_of_pos_right hiS hT
        _ = T * S := Nat.mul_comm S T
    have hj' : i * T / S < acc.length := by omega
    obtain ⟨out, hout, hsum, hlen⟩ :=
      ih (i + 1) (acc.set (i * T / S) (acc.get ⟨i * T / S, hj'⟩ + v))
        (by simp [hacc]) (by simp at hi ⊢; omega)
    refine ⟨out, ?_, ?_, hlen⟩
    · simp only [Spectrum.fillLoop, Spectrum.addAt, dif_pos hj', Option.some_bind]
      exact hout
    · rw [hsum, sum_set_add acc (i * T / S) v hj']
      simp [List.sum_cons]
      ring

/-- C4 counterexample: with a nonempty source spectrum and an empty target
buffer, `fill_buckets` indexes `buf[0]` out of bounds (a panic, modelled as
`none`), so no sum-preserving result exists; the claim's "for every target
buffer size" fails at target size 0. -/
theorem C4_fill_buckets_empty_target_cex :
    ¬ ∃ out, (Spectrum.new [(5 : ℚ)] 0 1).fill_buckets [] = some out ∧
        out.buckets.sum = (Spectrum.new [(5 : ℚ)] 0 1).buckets.sum := by
  simp [Spectrum.fill_buckets, Spectrum.fillLoop, Spectrum.addAt, Spectrum.new]

/-- C4 (amended: nonzero target size): for every source spectrum and every
nonempty target buffer, `fill_buckets` succeeds and the sum of the target
bucket values equals the sum of the source bucket values. -/
theorem C4_fill_buckets_sum_preserved (s : Spectrum) (buf : List ℚ)
    (hT : 0 < buf.length) :
    ∃ out, s.fill_buckets buf = some out ∧ out.buckets.sum = s.buckets.sum := by
  obtain ⟨o, ho, hsum, _⟩ :=
    fillLoop_sum s.buckets.length buf.length hT s.buckets 0
      (buf.map (fun _ => 0)) (by simp) (by simp)
  have hv : s.fill_buckets buf =
      some { width := (s.highest - s.lowest) / ((buf.length : ℚ) - 1),
             lowest := s.lowest, highest := s.highest, buckets := o } := by
    simp only [Spectrum.fill_buckets, ho, Option.map_some']
  refine ⟨_, hv, ?_⟩
  simpa using hsum

/-- Witness for C4 at a concrete input. -/
theorem C4_fill_buckets_sum_preserved_witness :
    0 < ([(7 : ℚ)] : List ℚ).length ∧
    ∃ out, (Spectrum.new [(1 : ℚ), 2] 0 1).fill_buckets [(7 : ℚ)] = some out ∧
      out.buckets.sum = (Spectrum.new [(1 : ℚ), 2] 0 1).buckets.sum := by
  exact ⟨by decide, C4_fill_buckets_sum_preserved _ _ (by decide)⟩

/-- C10: `fill_buckets` zeroes the target before accumulating, so its result
depends only on the source spectrum and the target length: any two target
buffers of equal length give identical results, whatever their prior
contents. -/
theorem C10_fill_buckets_target_independent (s : Spectrum) (t1 t2 : List ℚ)
    (h : t1.length = t2.length) : s.fill_buckets t1 = s.fill_buckets t2 := by
  have h1 : t1.map (fun _ => (0 : ℚ)) = List.replicate t1.length 0 :=
    List.map_const t1 0
  have h2 : t2.map (fun _ => (0 : ℚ)) = List.replicate t2.length 0 :=
    List.map_const t2 0
  simp only [Spectrum.fill_buckets, h1, h2, h]

/-- Witness for C10 at a concrete input: targets `[1, 2]` and `[3, 4]`. -/
theorem C10_fill_buckets_target_independent_witness :
    ([(1 : ℚ), 2] : List ℚ).length = ([(3 : ℚ), 4] : List ℚ).length ∧
    (Spectrum.new [(1 : ℚ), 2, 3] 0 2).fill_buckets [(1 : ℚ), 2] =
      (Spectrum.new [(1 : ℚ), 2, 3] 0 2).fill_buckets [(3 : ℚ), 4] :=
  ⟨rfl, C10_fill_buckets_target_independent _ _ _ rfl⟩

/-- C5 counterexample: the round-trip fails for a degenerate freshly
constructed spectrum.  With `low = high` the width is `0`, so `freq_to_id`
cannot recover any index (in the `f32` code the division produces a
non-finite value and an assertion fails); here `Spectrum::new([0, 0], 5, 5)`
with `i = 1` gives `freq_to_id(id_to_freq(1)) ≠ 1`. -/
theorem C5_roundtrip_degenerate_cex :
    ¬ (((Spectrum.new [(0 : ℚ), 0] 5 5).id_to_freq 1).bind
        (Spectrum.new [(0 : ℚ), 0] 5 5).freq_to_id = some 1) := by
  have hw : (Spectrum.new [(0 : ℚ), 0] 5 5).width = 0 := by
    simp [Spectrum.new]
  simp [Spectrum.id_to_freq, Spectrum.freq_to_id, hw, Spectrum.new,
    Spectrum.idToFreqVal]

/-- C5 (amended: non-degenerate spectra): for every freshly constructed
Spectrum with at least two buckets and distinct `low`/`high` bounds, and every
bucket index `i < len`, `freq_to_id(id_to_freq(i)) = i`. -/
theorem C5_freq_roundtrip (data : List ℚ) (low high : ℚ)
    (hlen : 1 < data.length) (hlh : low ≠ high) (i : Nat)
    (hi : i < data.length) :
    ((Spectrum.new data low high).id_to_freq i).bind
      (Spectrum.new data low high).freq_to_id = some i := by
  set s := Spectrum.new data low high with hsdef
  have hbl : s.buckets = data := rfl
  have hw : s.width = (high - low) / ((data.length : ℚ) - 1) := rfl
  have hdenom : ((data.length : ℚ) - 1) ≠ 0 := by
    have h1 : (1 : ℚ) < (data.length : ℚ) := by exact_mod_cast hlen
    linarith
  have hwne : s.width ≠ 0 := by
    rw [hw]
    exact div_ne_zero (sub_ne_zero.mpr (Ne.symm hlh)) hdenom
  have hx : (s.idToFreqVal i - s.lowest) / s.width = (i : ℚ) := by
    simp only [Spectrum.idToFreqVal, add_sub_cancel_right]
    exact mul_div_cancel_right₀ _ hwne
  have hi' : i < s.buckets.length := by rw [hbl]; exact hi
  simp only [Spectrum.id_to_freq, if_pos hi', Option.some_bind,
    Spectrum.freq_to_id, if_neg hwne, hx]
  rw [if_pos (by positivity : (0 : ℚ) ≤ (i : ℚ))]
  simp [round_natCast, hi']

/-- Witness for C5 at a concrete input: three buckets spanning 100–300 Hz,
index 1. -/
theorem C5_freq_roundtrip_witness :
    (1 < ([(10 : ℚ), 20, 30] : List ℚ).length ∧ (100 : ℚ) ≠ 300) ∧
    ((Spectrum.new [(10 : ℚ), 20, 30] 100 300).id_to_freq 1).bind
      (Spectrum.new [(10 : ℚ), 20, 30] 100 300).freq_to_id = some 1 :=
  ⟨⟨by decide, by decide⟩,
    C5_freq_roundtrip [(10 : ℚ), 20, 30] 100 300 (by decide) (by decide) 1
      (by decide)⟩

/-- The first derivative computed by `find_maxima`:
`buckets.windows(2).map(|v| v[1] - v[0])`. -/
def derivative (b : List ℚ) : List ℚ :=
  (b.zip b.tail).map (fun p => p.2 - p.1)

namespace Spectrum

/-- The maxima iterator of `find_maxima`: element `i` of
`derive2.iter().zip(derivative.iter().skip(1)).enumerate()` is
`(i, (d[i], d[i+1]))` for `i < d.len() - 1`; it is kept when
`d[i] > 0 && d[i+1] < 0`, yielding `(id_to_freq(i + 1), buckets[i + 1])`.
Both indexings are in bounds by construction (`i + 1 ≤ d.len() - 1 =
buckets.len() - 2`), so the defaulted `getD`/`idToFreqVal` forms coincide
with the partial Rust accesses. -/
def maximaList (s : Spectrum) : List (ℚ × ℚ) :=
  let d := derivative s.buckets
  (List.range (d.length - 1)).filterMap (fun i =>
    if 0 < d.getD i 0 ∧ d.getD (i + 1) 0 < 0 then
      some (s.idToFreqVal (i + 1), s.buckets.getD (i + 1) 0)
    else none)

/-- The write loop of `find_maxima`: `buffer.iter_mut().zip(maxima_iter)`
overwrites one buffer slot per discovered maximum and counts the writes. -/
def writeMaxima : List (ℚ × ℚ) → List (ℚ × ℚ) → List (ℚ × ℚ) × Nat
  | buffer, [] => (buffer, 0)
  | [], _ :: _ => ([], 0)
  | _ :: bs, m :: ms =>
    let r := writeMaxima bs ms
    (m :: r.1, r.2 + 1)

/-- The comparator of the final `sort_by` call: ascending in
`a2.partial_cmp(a1)`, i.e. descending by amplitude. -/
def ampDescLE (a b : ℚ × ℚ) : Bool := decide (b.2 ≤ a.2)

/-- `Spectrum::find_maxima(buffer)`: write the maxima into the buffer in
discovery order, stably sort the written prefix `buffer[0..num]` descending by
amplitude, and return the resulting buffer contents together with `num`. -/
def find_maxima (s : Spectrum) (buffer : List (ℚ × ℚ)) :
    List (ℚ × ℚ) × Nat :=
  let w := writeMaxima buffer (s.maximaList)
  (((w.1.take w.2).mergeSort ampDescLE) ++ w.1.drop w.2, w.2)

end Spectrum

/-- Closed form of the write loop: the first `min |buffer| |ms|` slots are
overwritten by the maxima in discovery order, the rest of the buffer is kept,
and the count is `min |buffer| |ms|`. -/
theorem writeMaxima_eq : ∀ (buffer ms : List (ℚ × ℚ)),
    Spectrum.writeMaxima buffer ms =
      (ms.take (min buffer.length ms.length) ++
        buffer.drop (min buffer.length ms.length),
       min buffer.length ms.length) := by
  intro buffer
  induction buffer with
  | nil =>
    intro ms
    cases ms <;> simp [Spectrum.writeMaxima]
  | cons b bs ih =>
    intro ms
    cases ms with
    | nil => simp [Spectrum.writeMaxima]
    | cons m mms =>
      simp [Spectrum.writeMaxima, ih mms, Nat.succ_min_succ]

/-- The comparator is transitive. -/
theorem ampDescLE_trans (a b c : ℚ × ℚ)
    (hab : Spectrum.ampDescLE a b = true) (hbc : Spectrum.ampDescLE b c = true) :
    Spectrum.ampDescLE a c = true := by
  simp only [Spectrum.ampDescLE, decide_eq_true_eq] at hab hbc ⊢
  exact le_trans hbc hab

/-- The comparator is total. -/
theorem ampDescLE_total (a b : ℚ × ℚ) :
    (Spectrum.ampDescLE a b || Spectrum.ampDescLE b a) = true := by
  simp only [Spectrum.ampDescLE, Bool.or_eq_true, decide_eq_true_eq]
  exact le_total b.2 a.2

/-- C3: `find_maxima` flags a local maximum at bucket `i + 1` exactly where
the first-derivative sequence flips sign from positive to negative, fills the
output buffer with `(frequency, amplitude)` pairs in discovery order up to
`buffer.len()` entries, sorts only that truncated prefix descending by
amplitude, leaves the rest of the buffer untouched, and returns the number of
entries written (`min buffer.len() maxima.len()`, so with more true maxima
than slots exactly `buffer.len()` entries are kept, drawn from the
earliest-discovered, i.e. lowest-frequency, maxima). -/
theorem C3_find_maxima_spec (s : Spectrum) (buffer : List (ℚ × ℚ)) :
    (s.find_maxima buffer).2 = min buffer.length (s.maximaList).length ∧
    ((s.find_maxima buffer).1.take (s.find_maxima buffer).2).Perm
      ((s.maximaList).take (s.find_maxima buffer).2) ∧
    List.Sorted (fun a b : ℚ × ℚ => b.2 ≤ a.2)
      ((s.find_maxima buffer).1.take (s.find_maxima buffer).2) ∧
    (s.find_maxima buffer).1.drop (s.find_maxima buffer).2 =
      buffer.drop (s.find_maxima buffer).2 ∧
    (∀ p : ℚ × ℚ, p ∈ s.maximaList ↔ ∃ i : Nat,
      i + 1 < (derivative s.buckets).length ∧
      0 < (derivative s.buckets).getD i 0 ∧
      (derivative s.buckets).getD (i + 1) 0 < 0 ∧
      p = (s.idToFreqVal (i + 1), s.buckets.getD (i + 1) 0)) := by
  have hw := writeMaxima_eq buffer (s.maximaList)
  set M := s.maximaList with hM
  set k := min buffer.length M.length with hk
  have hkb : k ≤ buffer.length := min_le_left _ _
  have hkM : k ≤ M.length := min_le_right _ _
  have htlen : (M.take k).length = k := by
    rw [List.length_take]; omega
  have hwrittenlen : (M.take k ++ buffer.drop k).length = buffer.length := by
    simp [List.length_append, List.length_take, List.length_drop]; omega
  have hfm : s.find_maxima buffer =
      (((M.take k).mergeSort Spectrum.ampDescLE) ++ buffer.drop k, k) := by
    simp only [Spectrum.find_maxima, ← hM, hw, List.take_left' htlen,
      List.drop_left' htlen]
  have hsortlen : ((M.take k).mergeSort Spectrum.ampDescLE).length = k := by
    rw [List.length_mergeSort]; exact htlen
  refine ⟨by rw [hfm], ?_, ?_, ?_, ?_⟩
  · rw [hfm]
    simp only [List.take_left' hsortlen]
    exact List.mergeSort_perm (M.take k) Spectrum.ampDescLE
  · rw [hfm]
    simp only [List.take_left' hsortlen]
    exact (List.sorted_mergeSort
        (fun a b c hab hbc => ampDescLE_trans a b c hab hbc)
        (fun a b => ampDescLE_total a b) (M.take k)).imp
      (fun h => by simpa [Spectrum.ampDescLE] using h)
  · rw [hfm]
    simp only [List.drop_left' hsortlen]
  · intro p
    rw [hM]
    simp only [Spectrum.maximaList, List.mem_filterMap, List.mem_range,
      Option.ite_none_right_eq_some, Option.some.injEq]
    constructor
    · rintro ⟨i, hi, ⟨h1, h2⟩, hp⟩
      exact ⟨i, by omega, h1, h2, hp.symm⟩
    · rintro ⟨i, hi, h1, h2, hp⟩
      exact ⟨i, by omega, ⟨h1, h2⟩, hp.symm⟩

/-- Model of the mutable scalar state of `BeatDetector` (`beat.rs`). -/
structure BeatState where
  last_volume : ℚ
  last_delta : ℚ
  last_beat_delta : ℚ
  last_peak : ℚ
  last_valley : ℚ

/-- The initial detector state built by `BeatDetector::from_builder`: all five
scalars start at `0.0`. -/
def BeatState.init : BeatState := ⟨0, 0, 0, 0, 0⟩

/-- One `BeatDetector::detect` cycle, abstracted over the measured volume
(which the Rust code obtains from its private Fourier analyzer): decay the
adaptive baseline, branch on the sign of the volume delta against the stored
previous delta, then store the new volume and (only if nonzero) the new
delta.  Returns the beat flag and the next state. -/
def detectStep (decay trigger : ℚ) (st : BeatState) (volume : ℚ) :
    Bool × BeatState :=
  let lbd := st.last_beat_delta * decay
  let delta := volume - st.last_volume
  let res :=
    if delta < 0 ∧ 0 < st.last_delta then
      let peak := st.last_volume
      let beatDelta := peak - st.last_valley
      if lbd * trigger < beatDelta then
        (true, { st with last_peak := peak, last_beat_delta := max lbd beatDelta })
      else
        (false, { st with last_peak := peak, last_beat_delta := lbd })
    else if 0 < delta ∧ st.last_delta < 0 then
      (false, { st with last_valley := st.last_volume, last_beat_delta := lbd })
    else
      (false, { st with last_beat_delta := lbd })
  let st3 := { res.2 with last_volume := volume }
  (res.1, if delta = 0 then st3 else { st3 with last_delta := delta })

/-- A sequence of `detect` calls with the given measured volumes, collecting
the returned beat flags. -/
def runDetect (decay trigger : ℚ) : BeatState → List ℚ → List Bool
  | _, [] => []
  | st, v :: vs =>
    (detectStep decay trigger st v).1 ::
      runDetect decay trigger (detectStep decay trigger st v).2 vs

/-- After a `detect` cycle the stored volume is the measured volume. -/
theorem detectStep_volume (decay trigger : ℚ) (st : BeatState) (v : ℚ) :
    (detectStep decay trigger st v).2.last_volume = v := by
  simp only [detectStep]
  split_ifs <;> rfl

/-- A strictly rising volume never produces a beat on that cycle. -/
theorem detectStep_rising (decay trigger : ℚ) (st : BeatState) (v : ℚ)
    (h : st.last_volume < v) :
    (detectStep decay trigger st v).1 = false := by
  have hd : ¬(v - st.last_volume < 0 ∧ 0 < st.last_delta) := by
    rintro ⟨h1, _⟩; linarith
  simp only [detectStep, if_neg hd]
  split_ifs <;> rfl

/-- When the stored previous delta is not positive (e.g. in the initial
state), no beat can be declared, whatever the measured volume. -/
theorem detectStep_nonpos_delta (decay trigger : ℚ) (st : BeatState) (v : ℚ)
    (h : st.last_delta ≤ 0) :
    (detectStep decay trigger st v).1 = false := by
  have hd : ¬(v - st.last_volume < 0 ∧ 0 < st.last_delta) := by
    rintro ⟨_, h2⟩; linarith
  simp only [detectStep, if_neg hd]
  split_ifs <;> rfl

/-- From any state, a volume sequence strictly rising above the stored volume
yields no beat at all. -/
theorem runDetect_rising (decay trigger : ℚ) :
    ∀ (vs : List ℚ) (st : BeatState),
      List.Chain' (· < ·) (st.last_volume :: vs) →
      runDetect decay trigger st vs = List.replicate vs.length false := by
  intro vs
  induction vs with
  | nil => intro st _; rfl
  | cons v vs ih =>
    intro st hchain
    rw [List.chain'_cons] at hchain
    obtain ⟨hlt, hchain2⟩ := hchain
    simp only [runDetect, detectStep_rising decay trigger st v hlt,
      List.length_cons, List.replicate_succ]
    refine congrArg (List.cons false) ?_
    refine ih _ ?_
    rw [detectStep_volume decay trigger st v]
    exact hchain2

/-- C6: For any sequence of `detect` calls whose measured volumes are strictly
monotonically increasing, starting from the initial detector state, `detect`
returns `false` on every call: a beat needs a negative delta while the stored
previous delta is positive, which a strictly rising sequence never produces. -/
theorem C6_beat_monotone (decay trigger : ℚ) (vs : List ℚ)
    (h : List.Chain' (· < ·) vs) :
    runDetect decay trigger BeatState.init vs =
      List.replicate vs.length false := by
  cases vs with
  | nil => rfl
  | cons v vs =>
    simp only [runDetect,
      detectStep_nonpos_delta decay trigger BeatState.init v (le_refl 0),
      List.length_cons, List.replicate_succ]
    refine congrArg (List.cons false) ?_
    refine runDetect_rising decay trigger vs _ ?_
    rw [detectStep_volume decay trigger BeatState.init v]
    exact h

/-- Witness for C6 at a concrete input: volumes `[1, 2, 3]`. -/
theorem C6_beat_monotone_witness :
    List.Chain' (· < ·) [(1 : ℚ), 2, 3] ∧
    runDetect 1 (2 / 5) BeatState.init [(1 : ℚ), 2, 3] =
      List.replicate 3 false := by
  have hchain : List.Chain' (· < ·) [(1 : ℚ), 2, 3] := by
    simp only [List.chain'_cons, List.chain'_singleton, and_true]
    norm_num
  exact ⟨hchain, C6_beat_monotone 1 (2 / 5) [(1 : ℚ), 2, 3] hchain⟩

namespace SampleBuffer

/-- `SampleBuffer::volume(length)` up to the final square root:
`div = (1.0 / length) as usize`, the sum of `((s[0] + s[1]) / 2)^2` over the
iterator with the first `len - rate / div` entries skipped, divided by the
full buffer length `len`.  `rate / 0` (a Rust panic) and the underflow of
`len - rate / div` (a debug-assertion panic) are modelled as `none`.  (The
`f32` code reaches `div = 0` only for `length` in `(1, ∞)` or `≤ 0`; the
non-finite `1.0 / 0.0` cast is outside this exact-rational model and is
excluded by the theorems' hypotheses.) -/
def volumeRadicand (b : SampleBuffer) (length : ℚ) : Option ℚ :=
  let len := b.buf.length
  let div := (⌊1 / length⌋).toNat
  if div = 0 then none
  else if b.rate / div ≤ len then
    some ((((b.buf.drop (len - b.rate / div)).map
      (fun s => ((s.1 + s.2) / 2) ^ 2)).sum) / (len : ℚ))
  else none

/-- `SampleBuffer::volume(length)`: the square root of the radicand. -/
noncomputable def volume (b : SampleBuffer) (length : ℚ) : Option ℝ :=
  (b.volumeRadicand length).map (fun q : ℚ => Real.sqrt q)

end SampleBuffer

/-- Dropping all but the last `k` entries is taking the last `k` entries. -/
theorem drop_eq_reverse_take {α : Type} (l : List α) (k : Nat)
    (hk : k ≤ l.length) :
    l.drop (l.length - k) = (l.reverse.take k).reverse := by
  have h1 : (l.drop (l.length - k)).reverse =
      l.reverse.take (l.length - (l.length - k)) :=
    @List.reverse_drop _ l (l.length - k)
  rw [Nat.sub_sub_self hk] at h1
  calc l.drop (l.length - k)
      = (l.drop (l.length - k)).reverse.reverse := (List.reverse_reverse _).symm
    _ = (l.reverse.take k).reverse := by rw [h1]

/-- C7: `volume(length)` returns the square root of: the sum of squared
mono-mixed samples `((left + right) / 2)^2` over the `rate / (1 / length)`
most recent frames, divided by the *total* buffer length — not by the number
of frames actually summed. -/
theorem C7_volume_rms (b : SampleBuffer) (length : ℚ)
    (hdiv : (⌊1 / length⌋).toNat ≠ 0)
    (hk : b.rate / (⌊1 / length⌋).toNat ≤ b.buf.length) :
    b.volume length = some (Real.sqrt
      ((((b.buf.reverse.take (b.rate / (⌊1 / length⌋).toNat)).reverse.map
        (fun s => ((s.1 + s.2) / 2) ^ 2)).sum / (b.buf.length : ℚ) : ℚ))) := by
  have hrev := drop_eq_reverse_take b.buf (b.rate / (⌊1 / length⌋).toNat) hk
  simp only [SampleBuffer.volume, SampleBuffer.volumeRadicand, if_neg hdiv,
    if_pos hk, hrev, Option.map_some']

/-- Witness for C7 at a concrete input: a two-frame buffer at rate 1 and a
window of one second. -/
theorem C7_volume_rms_witness :
    ((⌊(1 : ℚ) / 1⌋).toNat ≠ 0 ∧
      (⟨[((1 : ℚ), 1), ((2 : ℚ), 2)], 1⟩ : SampleBuffer).rate /
          (⌊(1 : ℚ) / 1⌋).toNat ≤
        (⟨[((1 : ℚ), 1), ((2 : ℚ), 2)], 1⟩ : SampleBuffer).buf.length) ∧
    ∃ r : ℝ, (⟨[((1 : ℚ), 1), ((2 : ℚ), 2)], 1⟩ : SampleBuffer).volume 1 =
      some r := by
  have h1 : (⌊(1 : ℚ) / 1⌋).toNat ≠ 0 := by norm_num
  have h2 : (⟨[((1 : ℚ), 1), ((2 : ℚ), 2)], 1⟩ : SampleBuffer).rate /
      (⌊(1 : ℚ) / 1⌋).toNat ≤
      (⟨[((1 : ℚ), 1), ((2 : ℚ), 2)], 1⟩ : SampleBuffer).buf.length := by
    norm_num
  exact ⟨⟨h1, h2⟩, ⟨_, C7_volume_rms _ 1 h1 h2⟩⟩
